import Mathlib

/-!
Shallow embedding of `src/transformers/models/cpmant/tokenization_cpmant_fast.py`
(the CPMAnt tokenizer: vocabulary table, greedy wordpiece segmenter, tokenizer
facade, single-example input builder, batch padder).

Modelling conventions:
* Python dicts (insertion-ordered, unique keys) are association lists
  `List (κ × ν)`; `dictGet?` is `d[k]` / `d.get(k)` (`none` models `KeyError`),
  `dictInsert` is `d[k] = v`, `dictDel` is `del d[k]`, and `dictOf` replays a
  sequence of assignments starting from `{}`.
* Operations that can raise a Python exception return `Option`; `none` is the
  raised exception.
* The wordpiece scanning loops are written with an explicit fuel argument so
  that they stay structurally recursive and executable; the fuel actually
  supplied (`chars.length`) is proved sufficient (the loop's cursor strictly
  advances every iteration), so the embedding computes exactly the source loop.
* File I/O, the `jieba` word segmenter and the tensor engine are external
  collaborators: `load_vocab` takes the already-split, newline-stripped lines;
  the facade's `tokenize` takes the span list that `jieba.cut` returned;
  integer tensors of rank 1 and 2 are `PTensor`.
-/

set_option autoImplicit false
set_option linter.unusedSectionVars false

section Dict

variable {κ ν : Type} [DecidableEq κ]

/-- Python `d[k]` / membership: the value of the unique binding of `k`, if any. -/
def dictGet? (d : List (κ × ν)) (k : κ) : Option ν :=
  (d.find? (fun p => p.1 == k)).map (fun p => p.2)

/-- Python `d[k] = v`: overwrite the existing binding in place, else append. -/
def dictInsert (d : List (κ × ν)) (k : κ) (v : ν) : List (κ × ν) :=
  if d.any (fun p => p.1 == k) then d.map (fun p => if p.1 == k then (k, v) else p)
  else d ++ [(k, v)]

/-- Python `del d[k]` (callers below only delete keys that are present). -/
def dictDel (d : List (κ × ν)) (k : κ) : List (κ × ν) :=
  d.filter (fun p => p.1 != k)

/-- Replay `d[k] = v` assignments, starting from the empty dict. -/
def dictOf (l : List (κ × ν)) : List (κ × ν) :=
  l.foldl (fun d p => dictInsert d p.1 p.2) []

end Dict

/-- Left-to-right effectful map over a list in the `Option` monad; `none` as
soon as one element fails (a Python comprehension whose body may raise). -/
def listMapM {α β : Type} (f : α → Option β) : List α → Option (List β)
  | [] => some []
  | a :: l =>
    match f a with
    | none => none
    | some b => (listMapM f l).map (fun bs => b :: bs)

/-- `load_vocab` (source lines 101-109): replays `vocab[token] = index` for
`index, token in enumerate(tokens)`.  Reading the file itself is out of scope:
`tokens` is the list of lines with the trailing `"\n"` already stripped. -/
def load_vocab (tokens : List String) : List (String × Nat) :=
  dictOf (tokens.enum.map (fun p => (p.2, p.1)))

/-- The encoder built by `CPMAntTokenizerFast.__init__` (source lines 186-191):
```
self.encoder = load_vocab(vocab_file)
self.encoder[" "] = self.encoder[space_token]
self.encoder["\n"] = self.encoder[line_token]
del self.encoder[space_token]
del self.encoder[line_token]
```
`none` models the `KeyError` raised when a placeholder is absent. -/
def buildEncoder (tokens : List String) (space_token line_token : String) :
    Option (List (String × Nat)) :=
  let v0 := load_vocab tokens
  match dictGet? v0 space_token with
  | none => none
  | some sid =>
    let v1 := dictInsert v0 " " sid
    match dictGet? v1 line_token with
    | none => none
    | some lid =>
      let v2 := dictInsert v1 "\n" lid
      some (dictDel (dictDel v2 space_token) line_token)

/-- `self.decoder = {v: k for k, v in self.encoder.items()}` (source line 193). -/
def buildDecoder (encoder : List (String × Nat)) : List (Nat × String) :=
  dictOf (encoder.map (fun p => (p.2, p.1)))

/-- One iteration of the write loop of `save_vocabulary` (source lines 269-277),
on the accumulator (lines written so far, warning emitted so far, running
`index`): warn when `index != token_index`, resynchronise `index` to
`token_index` in that case, write the token's line, increment `index`. -/
def saveStep (acc : List String × Bool × Nat) (p : String × Nat) :
    List String × Bool × Nat :=
  let warned := acc.2.1 || decide (acc.2.2 ≠ p.2)
  let index := if acc.2.2 ≠ p.2 then p.2 else acc.2.2
  (acc.1 ++ [p.1], warned, index + 1)

/-- `save_vocabulary` (source lines 260-278), modelled on its write loop: the
returned pair is (the token lines written, whether the non-consecutive-indices
warning was emitted at least once).  The path handling is out of scope. -/
def save_vocabulary (encoder : List (String × Nat)) : List String × Bool :=
  let r := encoder.foldl saveStep ([], false, 0)
  (r.1, r.2.1)

/-- `substr in self.vocab`: dict key membership. -/
def inVocab (vocab : List (String × Nat)) (s : String) : Bool :=
  vocab.any (fun p => p.1 == s)

/-- `"".join(chars[start:end])`. -/
def substrOf (chars : List Char) (start stop : Nat) : String :=
  String.mk ((chars.drop start).take (stop - start))

/-- The inner `while start < end` loop of `WordpieceTokenizer.tokenize`
(source lines 126-133), structural on the decreasing `end`:
returns the matched substring together with its end position, or `none`. -/
def longestMatch (vocab : List (String × Nat)) (chars : List Char) (start : Nat) :
    Nat → Option (String × Nat)
  | 0 => none
  | stop + 1 =>
    if start < stop + 1 then
      let substr := substrOf chars start (stop + 1)
      if inVocab vocab substr then some (substr, stop + 1)
      else longestMatch vocab chars start stop
    else none

/-- The cursor update performed by one iteration of the outer loop of
`WordpieceTokenizer.tokenize`: past the matched substring, else one step. -/
def wpNext (vocab : List (String × Nat)) (chars : List Char) (start : Nat) : Nat :=
  match longestMatch vocab chars start chars.length with
  | some p => p.2
  | none => start + 1

/-- The outer `while start < len(chars)` loop of `WordpieceTokenizer.tokenize`
(source lines 125-139), with explicit fuel (see the header comment). -/
def wpLoop (vocab : List (String × Nat)) (unk_token : String) (chars : List Char) :
    Nat → Nat → List String
  | 0, _ => []
  | fuel + 1, start =>
    if start < chars.length then
      match longestMatch vocab chars start chars.length with
      | some p => p.1 :: wpLoop vocab unk_token chars fuel p.2
      | none => unk_token :: wpLoop vocab unk_token chars fuel (start + 1)
    else []

/-- `WordpieceTokenizer.tokenize` (source lines 118-141).  The constructor
default for `max_input_chars_per_word` is 200. -/
def wordpieceTokenize (vocab : List (String × Nat)) (unk_token : String)
    (max_input_chars_per_word : Nat) (token : String) : List String :=
  let chars := token.data
  if chars.length > max_input_chars_per_word then [unk_token]
  else wpLoop vocab unk_token chars chars.length 0

/-- Reference greedy step, defined from the spec's words (refinement target for
the claim that the code equals the specified algorithm): "search for the
*longest* substring starting at `start` and ending at or before the span's end
that exactly matches a vocabulary entry" — the greatest end `e ≤ chars.length`
with `start < e` whose substring is in the vocabulary (0 when none exists). -/
def specLongestEnd (vocab : List (String × Nat)) (chars : List Char) (start : Nat) : Nat :=
  Nat.findGreatest (fun e => start < e ∧ inVocab vocab (substrOf chars start e) = true)
    chars.length

/-- Reference scanning loop, defined from the spec's words: emit the longest
match and advance to its end, else emit the unknown marker and advance by one. -/
def specSegment (vocab : List (String × Nat)) (unk_token : String) (chars : List Char) :
    Nat → Nat → List String
  | 0, _ => []
  | fuel + 1, start =>
    if start < chars.length then
      let e := specLongestEnd vocab chars start
      if start < e then
        substrOf chars start e :: specSegment vocab unk_token chars fuel e
      else unk_token :: specSegment vocab unk_token chars fuel (start + 1)
    else []

/-- Reference segmenter, defined from the spec's words: guard on the span's
character count, then scan. -/
def specTokenize (vocab : List (String × Nat)) (unk_token : String)
    (max_input_chars_per_word : Nat) (token : String) : List String :=
  if token.data.length > max_input_chars_per_word then [unk_token]
  else specSegment vocab unk_token token.data token.data.length 0

/-- `CPMAntTokenizerFast.tokenize` (source lines 232-237): the word spans
produced by the external `jieba.cut` are each wordpiece-segmented and the
results concatenated in order.  `spans` is the output of `jieba.cut`. -/
def tokenize (vocab : List (String × Nat)) (unk_token : String)
    (max_input_chars_per_word : Nat) (spans : List String) : List String :=
  (spans.map (wordpieceTokenize vocab unk_token max_input_chars_per_word)).flatten

/-- `CPMAntTokenizerFast.encode` (source lines 239-241):
`[self.encoder[x] for x in self.tokenize(text)]` — a plain indexing with no
miss handling, so a missing token raises (`none`). -/
def encode (encoder : List (String × Nat)) (unk_token : String)
    (max_input_chars_per_word : Nat) (spans : List String) : Option (List Nat) :=
  listMapM (fun x => dictGet? encoder x)
    (tokenize encoder unk_token max_input_chars_per_word spans)

/-- `CPMAntTokenizerFast.decode` (source lines 243-249): drop negative ids,
then `"".join(self.decoder[x])` — a nonnegative id absent from the decoder
raises (`none`).  The `torch.Tensor` branch only converts to a list and is
out of scope. -/
def decode (decoder : List (Nat × String)) (tokens : List Int) : Option String :=
  let nonneg := tokens.filter (fun i => decide (0 ≤ i))
  (listMapM (fun x => dictGet? decoder x.toNat) nonneg).map String.join

/-- `CPMAntTokenizerFast.convert_tokens_to_ids` (source lines 254-255):
`[self.encoder.get(x, self.encoder[self.unk_token]) for x in tokens]` — the
default `self.encoder[self.unk_token]` is evaluated for every element and
raises when the unknown token itself is absent. -/
def convert_tokens_to_ids (encoder : List (String × Nat)) (unk_token : String)
    (tokens : List String) : Option (List Nat) :=
  listMapM
    (fun x => (dictGet? encoder unk_token).map (fun unkId => (dictGet? encoder x).getD unkId))
    tokens

/-- `CPMAntTokenizerFast.convert_ids_to_tokens` (source lines 257-258):
`[self.decoder[x] if x >= 0 else self.unk_token for x in ids]` — a nonnegative
id absent from the decoder raises (`none`). -/
def convert_ids_to_tokens (decoder : List (Nat × String)) (unk_token : String)
    (ids : List Int) : Option (List String) :=
  listMapM (fun x => if 0 ≤ x then dictGet? decoder x.toNat else some unk_token) ids

/-- The `input` field built by `CPMAntTokenizerFast._convert_to_tensors`
(source lines 282-285), with the already-encoded content ids as input:
```
input_ids = [self.bos_id] + self.encode(input_text)
input_ids = [j for j in input_ids if j != self.unk_id]
model_inputs["input"] = [x + prompt_length * task_id for x in range(prompt_length)] + input_ids
``` -/
def convertInput (bos_id unk_id prompt_length task_id : Nat) (encoded : List Nat) :
    List Nat :=
  let input_ids := bos_id :: encoded
  let input_ids := input_ids.filter (fun j => j != unk_id)
  (List.range prompt_length).map (fun x => x + prompt_length * task_id) ++ input_ids

/-- An integer tensor of rank 1 or 2, as handled by `pad` for the claims in
scope (the rank-3 branch of the source follows the same pattern and none of
the claims exercise it). -/
inductive PTensor where
  | d1 (data : List Int)
  | d2 (rows : List (List Int))
deriving DecidableEq

/-- `shape[-1]`: trailing-dimension length (rows of a rank-2 tensor are
uniform, so the first row's length is the trailing dimension). -/
def PTensor.lastDimLen : PTensor → Nat
  | .d1 l => l.length
  | .d2 rows => (rows.headD []).length

/-- Whether `t[0]` (the indexing in the source's
`isinstance(orig_items[0][key][0], torch.Tensor)` check) succeeds. -/
def PTensor.headOK : PTensor → Bool
  | .d1 l => !l.isEmpty
  | .d2 rows => !rows.isEmpty

def PTensor.asD1? : PTensor → Option (List Int)
  | .d1 l => some l
  | .d2 _ => none

def PTensor.asD2? : PTensor → Option (List (List Int))
  | .d2 rows => some rows
  | .d1 _ => none

/-- `max(item[key].shape[-1] for item in items)` (`Nat`, so folding from 0 is
the true maximum of a nonempty list). -/
def padMaxLen (items : List PTensor) : Nat :=
  (items.map PTensor.lastDimLen).foldl max 0

/-- `min(item[key].shape[-1] for item in items)`. -/
def padMinLen (items : List PTensor) : Nat :=
  (items.map PTensor.lastDimLen).foldl min ((items.map PTensor.lastDimLen).headD 0)

/-- `tensor[i, -len(row):] = row` on a row `base` of the freshly allocated
output: a Python negative-slice assignment.  `-0:` slices the *whole* row, so
an empty `row` with a nonempty `base` is a shape mismatch and raises. -/
def setRowLeft (base row : List Int) : Option (List Int) :=
  if row.length = 0 then (if base.length = 0 then some base else none)
  else if row.length ≤ base.length then some (base.take (base.length - row.length) ++ row)
  else none

/-- `tensor[i, :len(row)] = row`: an empty `row` assigns to an empty slice and
is a no-op; a too-long `row` is a shape mismatch and raises. -/
def setRowRight (base row : List Int) : Option (List Int) :=
  if row.length ≤ base.length then some (row ++ base.drop row.length) else none

/-- One iteration of `pad`'s rank-2 copy loop (source lines 86-91): fetch
`item[key][0]` (`none` when the item has no rows, an `IndexError`), then
slice-assign it into the freshly allocated row. -/
def copyRow (maxLen : Nat) (padding_value : Int) (padding_side : String)
    (rows : List (List Int)) : Option (List Int) :=
  match rows.head? with
  | none => none
  | some r =>
    (if padding_side = "left" then setRowLeft else setRowRight)
      (List.replicate maxLen padding_value) r

/-- `pad` (source lines 56-98) on tensor-valued items (for a tensor item the
`isinstance(orig_items[0][key], list)` dispatch is false, so this is exactly
the source's behaviour on such batches; the list-of-tensors flattening branch
is outside every claim in scope).  `none` models the raised exceptions:
empty batch, failed `[0]` indexing on the first item, mismatched ranks
(`torch.cat` failure), failed `item[key][0]` indexing in the copy loop, and
slice-assignment shape mismatches. -/
def pad (origItems : List PTensor) (padding_value : Int) (padding_side : String) :
    Option PTensor :=
  match origItems with
  | [] => none
  | first :: _ =>
    if first.headOK = false then none
    else
      match first with
      | .d1 _ =>
        (listMapM PTensor.asD1? origItems).map (fun ls => PTensor.d1 ls.flatten)
      | .d2 _ =>
        match listMapM PTensor.asD2? origItems with
        | none => none
        | some rowss =>
          if padMaxLen origItems = padMinLen origItems then some (.d2 rowss.flatten)
          else
            (listMapM (copyRow (padMaxLen origItems) padding_value padding_side)
              rowss).map PTensor.d2

/-- The example vocabulary of the spec:
`{"<unk>":0, "<s>":1, "a":2, "b":3, "ab":4, " ":5}`. -/
def exampleVocab : List (String × Nat) :=
  [("<unk>", 0), ("<s>", 1), ("a", 2), ("b", 3), ("ab", 4), (" ", 5)]

/-! ## Association-list dictionary lemmas -/

theorem find?_filter {α : Type} {l : List α} {px q : α → Bool}
    (h : ∀ x ∈ l, px x = true → q x = true) :
    (l.filter q).find? px = l.find? px := by
  induction l with
  | nil => simp
  | cons a l ih =>
    by_cases hpa : px a
    · have hqa : q a := h a (by simp) hpa
      simp [List.filter_cons, hqa, List.find?, hpa]
    · simp only [Bool.not_eq_true] at hpa
      by_cases hqa : q a
      · simp only [List.filter_cons, hqa, if_true, List.find?, hpa, cond_false]
        exact ih (fun x hx => h x (by simp [hx]))
      · simp only [Bool.not_eq_true] at hqa
        simp only [List.filter_cons, hqa, Bool.false_eq_true, if_false, List.find?, hpa,
          cond_false]
        exact ih (fun x hx => h x (by simp [hx]))

theorem map_fst_filter_keyPred {κ ν : Type} {l : List (κ × ν)} {f : κ → Bool} :
    ((l.filter (fun p => f p.1)).map Prod.fst) = (l.map Prod.fst).filter f := by
  induction l with
  | nil => simp
  | cons p l ih =>
    by_cases hf : f p.1
    · simp [List.filter_cons, hf, ih]
    · simp only [Bool.not_eq_true] at hf
      simp [List.filter_cons, hf, ih]

section DictLemmas

variable {κ ν : Type} [DecidableEq κ]

theorem mem_of_dictGet? {d : List (κ × ν)} {k : κ} {v : ν}
    (h : dictGet? d k = some v) : (k, v) ∈ d := by
  induction d with
  | nil => simp [dictGet?] at h
  | cons p l ih =>
    simp only [dictGet?, List.find?] at h
    by_cases hk : p.1 == k
    · have hk' : p.1 = k := by simpa using hk
      simp only [hk, cond_true, Option.map_some', Option.some.injEq] at h
      apply List.mem_cons.2
      left
      cases p
      simp_all
    · simp only [Bool.not_eq_true] at hk
      simp only [hk, cond_false] at h
      exact List.mem_cons.2 (Or.inr (ih h))

theorem keys_mem_of_dictGet? {d : List (κ × ν)} {k : κ} {v : ν}
    (h : dictGet? d k = some v) : k ∈ d.map Prod.fst :=
  List.mem_map.2 ⟨(k, v), mem_of_dictGet? h, rfl⟩

theorem dictGet?_isSome_of_mem_keys {d : List (κ × ν)} {k : κ}
    (h : k ∈ d.map Prod.fst) : (dictGet? d k).isSome := by
  induction d with
  | nil => simp at h
  | cons p l ih =>
    simp only [List.map_cons, List.mem_cons] at h
    simp only [dictGet?, List.find?]
    by_cases hk : p.1 == k
    · simp [hk]
    · rcases h with h | h
      · simp [h] at hk
      · simp only [Bool.not_eq_true] at hk
        simp only [hk, cond_false]
        exact ih h

theorem dictGet?_of_mem_nodup {d : List (κ × ν)} {k : κ} {v : ν}
    (hnd : (d.map Prod.fst).Nodup) (h : (k, v) ∈ d) : dictGet? d k = some v := by
  induction d with
  | nil => simp at h
  | cons p l ih =>
    simp only [List.map_cons, List.nodup_cons] at hnd
    rcases List.mem_cons.1 h with h | h
    · subst h
      simp [dictGet?, List.find?]
    · have hk : p.1 ≠ k := by
        intro he
        exact hnd.1 (he ▸ List.mem_map.2 ⟨(k, v), h, rfl⟩)
      simp only [dictGet?, List.find?, beq_eq_false_iff_ne.2 hk, cond_false]
      exact ih hnd.2 h

theorem dictGet?_append {d₁ d₂ : List (κ × ν)} {k : κ} :
    dictGet? (d₁ ++ d₂) k =
      match dictGet? d₁ k with
      | some v => some v
      | none => dictGet? d₂ k := by
  induction d₁ with
  | nil => simp [dictGet?]
  | cons p l ih =>
    simp only [dictGet?, List.cons_append, List.find?]
    by_cases hk : p.1 == k
    · simp [hk]
    · simp only [Bool.not_eq_true] at hk
      simp only [hk, cond_false]
      exact ih

theorem dictGet?_eq_none_of_not_mem {d : List (κ × ν)} {k : κ}
    (h : k ∉ d.map Prod.fst) : dictGet? d k = none := by
  cases he : dictGet? d k with
  | none => rfl
  | some v => exact absurd (keys_mem_of_dictGet? he) h

theorem dictInsert_fresh {d : List (κ × ν)} {k : κ} {v : ν}
    (h : k ∉ d.map Prod.fst) : dictInsert d k v = d ++ [(k, v)] := by
  have hany : d.any (fun p => p.1 == k) = false := by
    rw [List.any_eq_false]
    intro p hp he
    have hpk : p.1 = k := by simpa using he
    exact h (hpk ▸ List.mem_map.2 ⟨p, hp, rfl⟩)
  unfold dictInsert
  rw [hany]
  simp

theorem mem_keys_dictInsert {d : List (κ × ν)} {k x : κ} {v : ν}
    (h : x ∈ (dictInsert d k v).map Prod.fst) : x ∈ d.map Prod.fst ∨ x = k := by
  unfold dictInsert at h
  by_cases hc : d.any (fun q => q.1 == k)
  · rw [if_pos hc, List.map_map] at h
    rcases List.mem_map.1 h with ⟨q, hq, hqe⟩
    simp only [Function.comp_apply] at hqe
    by_cases hqk : q.1 == k
    · rw [if_pos hqk] at hqe
      right
      exact hqe.symm
    · rw [if_neg (by simp [Bool.not_eq_true] at hqk; simp [hqk])] at hqe
      exact Or.inl (hqe ▸ List.mem_map.2 ⟨q, hq, rfl⟩)
  · rw [if_neg hc] at h
    simp only [List.map_append, List.mem_append, List.map_cons, List.map_nil,
      List.mem_singleton] at h
    rcases h with h | h
    · exact Or.inl h
    · exact Or.inr h

theorem dictOf_keys_aux {l : List (κ × ν)} :
    ∀ (d : List (κ × ν)) (x : κ),
      x ∈ ((l.foldl (fun d p => dictInsert d p.1 p.2) d).map Prod.fst) →
      x ∈ d.map Prod.fst ∨ x ∈ l.map Prod.fst := by
  induction l with
  | nil => intro d x h; exact Or.inl h
  | cons p l ih =>
    intro d x h
    rcases ih (dictInsert d p.1 p.2) x h with h | h
    · rcases mem_keys_dictInsert h with h | h
      · exact Or.inl h
      · right; simp [h]
    · right; simp [h]

theorem dictOf_keys_subset {l : List (κ × ν)} :
    (dictOf l).map Prod.fst ⊆ l.map Prod.fst := by
  intro x hx
  unfold dictOf at hx
  rcases dictOf_keys_aux [] x hx with h | h
  · simp at h
  · exact h

theorem dictOf_of_nodup_aux {l : List (κ × ν)} :
    ∀ d : List (κ × ν), (l.map Prod.fst).Nodup →
      (∀ k ∈ l.map Prod.fst, k ∉ d.map Prod.fst) →
      l.foldl (fun d p => dictInsert d p.1 p.2) d = d ++ l := by
  induction l with
  | nil => intro d _ _; simp
  | cons p l ih =>
    intro d hnd hdis
    simp only [List.map_cons, List.nodup_cons] at hnd
    have hfresh : p.1 ∉ d.map Prod.fst := hdis p.1 (by simp)
    simp only [List.foldl_cons, dictInsert_fresh hfresh]
    rw [ih (d ++ [(p.1, p.2)]) hnd.2]
    · simp
    · intro k hk
      simp only [List.map_append, List.mem_append, List.map_cons, List.map_nil,
        List.mem_singleton]
      rintro (h | h)
      · exact hdis k (by simp [hk]) h
      · exact hnd.1 (h ▸ hk)

theorem dictOf_of_nodup {l : List (κ × ν)} (h : (l.map Prod.fst).Nodup) :
    dictOf l = l := by
  unfold dictOf
  rw [dictOf_of_nodup_aux [] h (by simp)]
  simp

theorem snd_nodup_inj {l : List (κ × ν)} (h : (l.map Prod.snd).Nodup)
    {a b : κ} {v : ν} (ha : (a, v) ∈ l) (hb : (b, v) ∈ l) : a = b := by
  induction l with
  | nil => simp at ha
  | cons p l ih =>
    simp only [List.map_cons, List.nodup_cons] at h
    rcases List.mem_cons.1 ha with ha' | ha' <;> rcases List.mem_cons.1 hb with hb' | hb'
    · have : (a, v) = (b, v) := ha'.trans hb'.symm
      simpa using congrArg Prod.fst this
    · exfalso
      apply h.1
      have hv : v = p.2 := congrArg Prod.snd ha'
      exact hv ▸ List.mem_map.2 ⟨(b, v), hb', rfl⟩
    · exfalso
      apply h.1
      have hv : v = p.2 := congrArg Prod.snd hb'
      exact hv ▸ List.mem_map.2 ⟨(a, v), ha', rfl⟩
    · exact ih h.2 ha' hb'

end DictLemmas

/-! ## `listMapM` lemmas -/

theorem listMapM_eq_some {α β : Type} {f : α → Option β} {g : α → β} {l : List α}
    (h : ∀ a ∈ l, f a = some (g a)) : listMapM f l = some (l.map g) := by
  induction l with
  | nil => simp [listMapM]
  | cons a l ih =>
    simp only [listMapM, h a (by simp), ih (fun a ha => h a (by simp [ha])),
      Option.map_some', List.map_cons]

theorem listMapM_isSome {α β : Type} {f : α → Option β} {l : List α}
    (h : ∀ a ∈ l, (f a).isSome) : (listMapM f l).isSome := by
  induction l with
  | nil => simp [listMapM]
  | cons a l ih =>
    rcases Option.isSome_iff_exists.1 (h a (by simp)) with ⟨b, hb⟩
    rcases Option.isSome_iff_exists.1 (ih (fun a ha => h a (by simp [ha]))) with ⟨bs, hbs⟩
    simp [listMapM, hb, hbs]

theorem listMapM_map_section {α β : Type} {mk : α → β} {proj : β → Option α}
    (h : ∀ a, proj (mk a) = some a) (l : List α) :
    listMapM proj (l.map mk) = some l := by
  induction l with
  | nil => simp [listMapM]
  | cons a l ih => simp [listMapM, h, ih]

/-! ## Greedy wordpiece segmenter lemmas -/

theorem longestMatch_bounds {vocab : List (String × Nat)} {chars : List Char}
    {start : Nat} :
    ∀ {stop : Nat} {p : String × Nat}, longestMatch vocab chars start stop = some p →
      start < p.2 ∧ p.2 ≤ stop ∧ p.1 = substrOf chars start p.2 ∧ inVocab vocab p.1 = true := by
  intro stop
  induction stop with
  | zero => intro p h; simp [longestMatch] at h
  | succ stop ih =>
    intro p h
    simp only [longestMatch] at h
    by_cases hlt : start < stop + 1
    · rw [if_pos hlt] at h
      by_cases hv : inVocab vocab (substrOf chars start (stop + 1))
      · rw [if_pos hv] at h
        cases h
        exact ⟨hlt, Nat.le_refl _, rfl, hv⟩
      · rw [if_neg hv] at h
        obtain ⟨h1, h2, h3, h4⟩ := ih h
        exact ⟨h1, by omega, h3, h4⟩
    · rw [if_neg hlt] at h
      simp at h

theorem longestMatch_eq_findGreatest (vocab : List (String × Nat)) (chars : List Char)
    (start : Nat) : ∀ stop : Nat,
    longestMatch vocab chars start stop =
      (if start <
          Nat.findGreatest (fun e => start < e ∧ inVocab vocab (substrOf chars start e) = true)
            stop
       then
        some
          (substrOf chars start
            (Nat.findGreatest
              (fun e => start < e ∧ inVocab vocab (substrOf chars start e) = true) stop),
          Nat.findGreatest (fun e => start < e ∧ inVocab vocab (substrOf chars start e) = true)
            stop)
       else none) := by
  intro stop
  induction stop with
  | zero => simp [longestMatch]
  | succ stop ih =>
    rw [Nat.findGreatest_succ]
    by_cases hP : start < stop + 1 ∧ inVocab vocab (substrOf chars start (stop + 1)) = true
    · rw [if_pos hP, if_pos hP.1]
      simp only [longestMatch]
      rw [if_pos hP.1, if_pos hP.2]
    · rw [if_neg hP]
      simp only [longestMatch]
      by_cases hlt : start < stop + 1
      · have hv : ¬inVocab vocab (substrOf chars start (stop + 1)) = true := fun hv =>
          hP ⟨hlt, hv⟩
        rw [if_pos hlt, if_neg hv, ih]
      · rw [if_neg hlt]
        have hle :
            Nat.findGreatest
              (fun e => start < e ∧ inVocab vocab (substrOf chars start e) = true) stop ≤
              stop :=
          Nat.findGreatest_le stop
        rw [if_neg (by omega)]

theorem wpNext_gt (vocab : List (String × Nat)) (chars : List Char) (start : Nat) :
    start < wpNext vocab chars start := by
  unfold wpNext
  cases h : longestMatch vocab chars start chars.length with
  | none => exact Nat.lt_succ_self start
  | some p => exact (longestMatch_bounds h).1

theorem wpLoop_stopped {vocab : List (String × Nat)} {unk_token : String}
    {chars : List Char} {start : Nat} (h : chars.length ≤ start) :
    ∀ fuel : Nat, wpLoop vocab unk_token chars fuel start = [] := by
  intro fuel
  cases fuel with
  | zero => rfl
  | succ fuel => simp [wpLoop, Nat.not_lt.2 h]

theorem wpLoop_fuel {vocab : List (String × Nat)} {unk_token : String}
    {chars : List Char} :
    ∀ (fuel₁ : Nat) {fuel₂ start : Nat}, chars.length - start ≤ fuel₁ →
      chars.length - start ≤ fuel₂ →
      wpLoop vocab unk_token chars fuel₁ start = wpLoop vocab unk_token chars fuel₂ start := by
  intro fuel₁
  induction fuel₁ with
  | zero =>
    intro fuel₂ start h1 _
    have : chars.length ≤ start := by omega
    rw [wpLoop_stopped this, wpLoop_stopped this]
  | succ fuel₁ ih =>
    intro fuel₂ start h1 h2
    by_cases hlt : start < chars.length
    · cases fuel₂ with
      | zero => omega
      | succ fuel₂ =>
        simp only [wpLoop, if_pos hlt]
        cases hm : longestMatch vocab chars start chars.length with
        | none =>
          exact congrArg _ (@ih fuel₂ (start + 1) (by omega) (by omega))
        | some p =>
          obtain ⟨hgt, hle, -, -⟩ := longestMatch_bounds hm
          exact congrArg _ (@ih fuel₂ p.2 (by omega) (by omega))
    · have h := Nat.not_lt.1 hlt
      rw [wpLoop_stopped h, wpLoop_stopped h]

theorem wpLoop_eq_specSegment (vocab : List (String × Nat)) (unk_token : String)
    (chars : List Char) :
    ∀ (fuel start : Nat),
      wpLoop vocab unk_token chars fuel start = specSegment vocab unk_token chars fuel start := by
  intro fuel
  induction fuel with
  | zero => intro start; rfl
  | succ fuel ih =>
    intro start
    simp only [wpLoop, specSegment, specLongestEnd]
    by_cases hlt : start < chars.length
    · rw [if_pos hlt, if_pos hlt, longestMatch_eq_findGreatest]
      by_cases hg :
          start <
            Nat.findGreatest
              (fun e => start < e ∧ inVocab vocab (substrOf chars start e) = true) chars.length
      · rw [if_pos hg, if_pos hg]
        exact congrArg _ (ih _)
      · rw [if_neg hg, if_neg hg]
        exact congrArg _ (ih _)
    · rw [if_neg hlt, if_neg hlt]

theorem wordpieceTokenize_eq_specTokenize (vocab : List (String × Nat)) (unk_token : String)
    (max_input_chars_per_word : Nat) (token : String) :
    wordpieceTokenize vocab unk_token max_input_chars_per_word token =
      specTokenize vocab unk_token max_input_chars_per_word token := by
  unfold wordpieceTokenize specTokenize
  by_cases h : token.data.length > max_input_chars_per_word
  · rw [if_pos h, if_pos h]
  · rw [if_neg h, if_neg h, wpLoop_eq_specSegment]

theorem wpLoop_mem {vocab : List (String × Nat)} {unk_token : String} {chars : List Char} :
    ∀ {fuel start : Nat} {t : String}, t ∈ wpLoop vocab unk_token chars fuel start →
      t = unk_token ∨ inVocab vocab t = true := by
  intro fuel
  induction fuel with
  | zero => intro start t h; simp [wpLoop] at h
  | succ fuel ih =>
    intro start t h
    simp only [wpLoop] at h
    by_cases hlt : start < chars.length
    · rw [if_pos hlt] at h
      cases hm : longestMatch vocab chars start chars.length with
      | none =>
        rw [hm] at h
        rcases List.mem_cons.1 h with h | h
        · exact Or.inl h
        · exact ih h
      | some p =>
        rw [hm] at h
        rcases List.mem_cons.1 h with h | h
        · exact Or.inr (h ▸ (longestMatch_bounds hm).2.2.2)
        · exact ih h
    · rw [if_neg hlt] at h
      simp at h

theorem wordpieceTokenize_mem {vocab : List (String × Nat)} {unk_token : String}
    {max_input_chars_per_word : Nat} {token t : String}
    (h : t ∈ wordpieceTokenize vocab unk_token max_input_chars_per_word token) :
    t = unk_token ∨ inVocab vocab t = true := by
  unfold wordpieceTokenize at h
  by_cases hg : token.data.length > max_input_chars_per_word
  · rw [if_pos hg] at h
    simp at h
    exact Or.inl h
  · rw [if_neg hg] at h
    exact wpLoop_mem h

/-! ## Encoder construction lemmas -/

theorem dictDel_get_self {κ ν : Type} [DecidableEq κ] (d : List (κ × ν)) (k : κ) :
    dictGet? (dictDel d k) k = none := by
  apply dictGet?_eq_none_of_not_mem
  intro h
  rcases List.mem_map.1 h with ⟨p, hp, hpe⟩
  have := (List.mem_filter.1 hp).2
  rw [hpe] at this
  simp at this

theorem dictDel_get_ne {κ ν : Type} [DecidableEq κ] {d : List (κ × ν)} {k t : κ}
    (h : t ≠ k) : dictGet? (dictDel d k) t = dictGet? d t := by
  unfold dictGet? dictDel
  rw [find?_filter]
  intro p _ hpx
  have hpt : p.1 = t := by simpa using hpx
  rw [hpt]
  exact bne_iff_ne.2 h

theorem dictDel_map_fst {κ ν : Type} [DecidableEq κ] (d : List (κ × ν)) (k : κ) :
    (dictDel d k).map Prod.fst = (d.map Prod.fst).filter (fun x => x != k) := by
  induction d with
  | nil => rfl
  | cons p l ih =>
    unfold dictDel at ih ⊢
    by_cases h : p.1 != k
    · simp only [List.filter_cons, h, if_true, List.map_cons, ih]
    · simp only [Bool.not_eq_true] at h
      simp only [List.filter_cons, List.map_cons, h, Bool.false_eq_true, if_false, ih]

theorem load_vocab_keys_subset {tokens : List String} :
    (load_vocab tokens).map Prod.fst ⊆ tokens := by
  intro x hx
  have h := dictOf_keys_subset hx
  rw [List.map_map] at h
  have he : (Prod.fst ∘ fun p : Nat × String => (p.2, p.1)) = Prod.snd := rfl
  rw [he, List.enum_map_snd] at h
  exact h

theorem load_vocab_of_nodup {tokens : List String} (h : tokens.Nodup) :
    load_vocab tokens = tokens.enum.map (fun p => (p.2, p.1)) := by
  unfold load_vocab
  apply dictOf_of_nodup
  rw [List.map_map]
  have he : (Prod.fst ∘ fun p : Nat × String => (p.2, p.1)) = Prod.snd := rfl
  rw [he, List.enum_map_snd]
  exact h

theorem load_vocab_snd_nodup {tokens : List String} (h : tokens.Nodup) :
    ((load_vocab tokens).map Prod.snd).Nodup := by
  rw [load_vocab_of_nodup h, List.map_map]
  have he : (Prod.snd ∘ fun p : Nat × String => (p.2, p.1)) = Prod.fst := rfl
  rw [he, List.enum_map_fst]
  exact List.nodup_range tokens.length

theorem buildEncoder_explicit {tokens : List String} {sT lT : String} {sid lid : Nat}
    (h5 : " " ∉ tokens) (h6 : "\n" ∉ tokens)
    (hs : dictGet? (load_vocab tokens) sT = some sid)
    (hl : dictGet? (load_vocab tokens) lT = some lid) :
    buildEncoder tokens sT lT =
      some (dictDel (dictDel (load_vocab tokens) sT) lT ++ [(" ", sid), ("\n", lid)]) := by
  have hsT : sT ∈ tokens := load_vocab_keys_subset (keys_mem_of_dictGet? hs)
  have hlT : lT ∈ tokens := load_vocab_keys_subset (keys_mem_of_dictGet? hl)
  have hsp : sT ≠ " " := fun he => h5 (he ▸ hsT)
  have hsn : sT ≠ "\n" := fun he => h6 (he ▸ hsT)
  have hlp : lT ≠ " " := fun he => h5 (he ▸ hlT)
  have hln : lT ≠ "\n" := fun he => h6 (he ▸ hlT)
  have hspk : (" " : String) ∉ (load_vocab tokens).map Prod.fst := fun h =>
    h5 (load_vocab_keys_subset h)
  have hv1 : dictInsert (load_vocab tokens) " " sid = load_vocab tokens ++ [(" ", sid)] :=
    dictInsert_fresh hspk
  have hlnk : ("\n" : String) ∉ (load_vocab tokens ++ [(" ", sid)]).map Prod.fst := by
    simp only [List.map_append, List.mem_append, List.map_cons, List.map_nil,
      List.mem_singleton]
    rintro (h | h)
    · exact h6 (load_vocab_keys_subset h)
    · exact absurd h (by decide)
  have hget1 : dictGet? (load_vocab tokens ++ [(" ", sid)]) lT = some lid := by
    rw [dictGet?_append, hl]
  simp only [buildEncoder, hs, hv1, hget1, dictInsert_fresh hlnk, Option.some.injEq]
  unfold dictDel
  rw [List.append_assoc, List.filter_append, List.filter_append]
  have htail :
      (List.filter (fun p => p.1 != sT) ([(" ", sid)] ++ [("\n", lid)])).filter
          (fun p => p.1 != lT) = [(" ", sid), ("\n", lid)] := by
    simp only [List.filter, List.cons_append, List.nil_append]
    rw [show ((" " : String) != sT) = true from bne_iff_ne.2 (Ne.symm hsp),
      show (("\n" : String) != sT) = true from bne_iff_ne.2 (Ne.symm hsn)]
    simp only [List.filter]
    rw [show ((" " : String) != lT) = true from bne_iff_ne.2 (Ne.symm hlp),
      show (("\n" : String) != lT) = true from bne_iff_ne.2 (Ne.symm hln)]
  rw [htail]

theorem buildDecoder_eq_swap {encoder : List (String × Nat)}
    (hv : (encoder.map Prod.snd).Nodup) :
    buildDecoder encoder = encoder.map (fun p => (p.2, p.1)) := by
  unfold buildDecoder
  apply dictOf_of_nodup
  rw [List.map_map]
  have he : (Prod.fst ∘ fun p : String × Nat => (p.2, p.1)) = Prod.snd := rfl
  rw [he]
  exact hv

theorem encoder_decoder_inverse {encoder : List (String × Nat)}
    (hk : (encoder.map Prod.fst).Nodup) (hv : (encoder.map Prod.snd).Nodup) :
    (∀ t i, dictGet? encoder t = some i → dictGet? (buildDecoder encoder) i = some t) ∧
    (∀ i t, dictGet? (buildDecoder encoder) i = some t → dictGet? encoder t = some i) := by
  have hdec := buildDecoder_eq_swap hv
  have hdk : ((buildDecoder encoder).map Prod.fst).Nodup := by
    rw [hdec, List.map_map]
    have he : (Prod.fst ∘ fun p : String × Nat => (p.2, p.1)) = Prod.snd := rfl
    rw [he]
    exact hv
  constructor
  · intro t i h
    have hmem : (i, t) ∈ buildDecoder encoder := by
      rw [hdec]
      exact List.mem_map.2 ⟨(t, i), mem_of_dictGet? h, rfl⟩
    exact dictGet?_of_mem_nodup hdk hmem
  · intro i t h
    have hmem := mem_of_dictGet? h
    rw [hdec] at hmem
    rcases List.mem_map.1 hmem with ⟨p, hp, hpe⟩
    have hpt : p = (t, i) := by
      cases p
      cases hpe
      rfl
    exact dictGet?_of_mem_nodup hk (hpt ▸ hp)

theorem buildEncoder_keys_nodup {tokens : List String} {sT lT : String} {sid lid : Nat}
    (hnd : tokens.Nodup) (h5 : " " ∉ tokens) (h6 : "\n" ∉ tokens) :
    ((dictDel (dictDel (load_vocab tokens) sT) lT ++ [(" ", sid), ("\n", lid)]).map
      Prod.fst).Nodup := by
  rw [List.map_append]
  have hdd : (dictDel (dictDel (load_vocab tokens) sT) lT).map Prod.fst =
      ((((load_vocab tokens).map Prod.fst).filter (fun x => x != sT)).filter
        (fun x => x != lT)) := by
    rw [dictDel_map_fst, dictDel_map_fst]
  rw [hdd]
  apply List.Nodup.append
  · have hkeys : ((load_vocab tokens).map Prod.fst).Nodup := by
      rw [load_vocab_of_nodup hnd, List.map_map]
      have he : (Prod.fst ∘ fun p : Nat × String => (p.2, p.1)) = Prod.snd := rfl
      rw [he, List.enum_map_snd]
      exact hnd
    exact (hkeys.filter _).filter _
  · simp only [List.map_cons, List.map_nil]
    refine List.nodup_cons.2 ⟨?_, List.nodup_singleton _⟩
    simp
  · intro x hx hy
    have hmem : x ∈ (load_vocab tokens).map Prod.fst :=
      (List.mem_filter.1 ((List.mem_filter.1 hx).1)).1
    have hmt : x ∈ tokens := load_vocab_keys_subset hmem
    simp only [List.map_cons, List.map_nil, List.mem_cons, List.not_mem_nil,
      or_false] at hy
    rcases hy with rfl | rfl
    · exact h5 hmt
    · exact h6 hmt

theorem buildEncoder_snd_nodup {tokens : List String} {sT lT : String} {sid lid : Nat}
    (hnd : tokens.Nodup) (h4 : sT ≠ lT)
    (hs : dictGet? (load_vocab tokens) sT = some sid)
    (hl : dictGet? (load_vocab tokens) lT = some lid) :
    ((dictDel (dictDel (load_vocab tokens) sT) lT ++ [(" ", sid), ("\n", lid)]).map
      Prod.snd).Nodup := by
  have hvnd : ((load_vocab tokens).map Prod.snd).Nodup := load_vocab_snd_nodup hnd
  have hsub : (dictDel (dictDel (load_vocab tokens) sT) lT).Sublist (load_vocab tokens) :=
    ((List.filter_sublist _).trans (List.filter_sublist _))
  have hmem_s : (sT, sid) ∈ load_vocab tokens := mem_of_dictGet? hs
  have hmem_l : (lT, lid) ∈ load_vocab tokens := mem_of_dictGet? hl
  have hsl : sid ≠ lid := by
    intro he
    exact h4 (snd_nodup_inj hvnd hmem_s (he ▸ hmem_l))
  have hnotin : ∀ v : Nat, v ∈ (dictDel (dictDel (load_vocab tokens) sT) lT).map Prod.snd →
      v ≠ sid ∧ v ≠ lid := by
    intro v hv
    rcases List.mem_map.1 hv with ⟨p, hp, hpe⟩
    have hp1 : p ∈ load_vocab tokens := hsub.subset hp
    have hne_s : p.1 ≠ sT := by
      have := (List.mem_filter.1 ((List.mem_filter.1 hp).1)).2
      simpa using this
    have hne_l : p.1 ≠ lT := by
      have := (List.mem_filter.1 hp).2
      simpa using this
    constructor
    · intro he
      apply hne_s
      have hps : (p.1, sid) ∈ load_vocab tokens := by
        have hpp : p = (p.1, sid) := by
          cases p
          simp_all
        exact hpp ▸ hp1
      exact snd_nodup_inj hvnd hps hmem_s
    · intro he
      apply hne_l
      have hpl : (p.1, lid) ∈ load_vocab tokens := by
        have hpp : p = (p.1, lid) := by
          cases p
          simp_all
        exact hpp ▸ hp1
      exact snd_nodup_inj hvnd hpl hmem_l
  rw [List.map_append]
  apply List.Nodup.append
  · exact hvnd.sublist (hsub.map Prod.snd)
  · simp only [List.map_cons, List.map_nil]
    exact List.nodup_cons.2 (by simpa using hsl)
  · intro v hv hy
    simp only [List.map_cons, List.map_nil, List.mem_cons, List.not_mem_nil,
      or_false] at hy
    rcases hy with rfl | rfl
    · exact (hnotin v hv).1 rfl
    · exact (hnotin v hv).2 rfl

theorem buildEncoder_get {tokens : List String} {sT lT : String} {sid lid : Nat}
    (h5 : " " ∉ tokens) (h6 : "\n" ∉ tokens) (h4 : sT ≠ lT)
    (hs : dictGet? (load_vocab tokens) sT = some sid)
    (hl : dictGet? (load_vocab tokens) lT = some lid) (t : String) :
    dictGet? (dictDel (dictDel (load_vocab tokens) sT) lT ++ [(" ", sid), ("\n", lid)]) t =
      if t = " " then some sid
      else if t = "\n" then some lid
      else if t = sT ∨ t = lT then none
      else dictGet? (load_vocab tokens) t := by
  have hsT : sT ∈ tokens := load_vocab_keys_subset (keys_mem_of_dictGet? hs)
  have hlT : lT ∈ tokens := load_vocab_keys_subset (keys_mem_of_dictGet? hl)
  have hsp : sT ≠ " " := fun he => h5 (he ▸ hsT)
  have hsn : sT ≠ "\n" := fun he => h6 (he ▸ hsT)
  have hlp : lT ≠ " " := fun he => h5 (he ▸ hlT)
  have hln : lT ≠ "\n" := fun he => h6 (he ▸ hlT)
  have hddkeys : ∀ x : String,
      x ∈ (dictDel (dictDel (load_vocab tokens) sT) lT).map Prod.fst → x ∈ tokens := by
    intro x hx
    rcases List.mem_map.1 hx with ⟨p, hp, hpe⟩
    have hp0 : p ∈ load_vocab tokens := (List.mem_filter.1 ((List.mem_filter.1 hp).1)).1
    exact load_vocab_keys_subset (hpe ▸ List.mem_map.2 ⟨p, hp0, rfl⟩)
  have tailother : ∀ u : String, u ≠ " " → u ≠ "\n" →
      dictGet? [(" ", sid), ("\n", lid)] u = none := by
    intro u h1 h2
    simp only [dictGet?, List.find?,
      show ((" " : String) == u) = false from beq_eq_false_iff_ne.2 (Ne.symm h1),
      show (("\n" : String) == u) = false from beq_eq_false_iff_ne.2 (Ne.symm h2),
      cond_false, Option.map_none']
  rw [dictGet?_append]
  by_cases h1 : t = " "
  · subst h1
    rw [dictGet?_eq_none_of_not_mem (fun h => h5 (hddkeys _ h))]
    simp [dictGet?, List.find?]
  · by_cases h2 : t = "\n"
    · subst h2
      rw [dictGet?_eq_none_of_not_mem (fun h => h6 (hddkeys _ h))]
      rw [if_neg (by decide), if_pos rfl]
      simp [dictGet?, List.find?]
    · by_cases h3 : t = sT
      · subst h3
        rw [dictDel_get_ne h4, dictDel_get_self, tailother t hsp hsn,
          if_neg h1, if_neg h2, if_pos (Or.inl rfl)]
      · by_cases h4' : t = lT
        · subst h4'
          rw [dictDel_get_self, tailother t hlp hln,
            if_neg h1, if_neg h2, if_pos (Or.inr rfl)]
        · rw [dictDel_get_ne h4', dictDel_get_ne h3, tailother t h1 h2,
            if_neg h1, if_neg h2, if_neg (by tauto)]
          cases hv : dictGet? (load_vocab tokens) t <;> rfl

/-! ## `save_vocabulary` fold invariant -/

theorem save_foldl_inv (encoder : List (String × Nat)) :
    ∀ (lines : List String) (warned : Bool) (index : Nat),
      (encoder.foldl saveStep (lines, warned, index)).1 = lines ++ encoder.map Prod.fst ∧
      ((encoder.foldl saveStep (lines, warned, index)).2.1 = false ↔
        warned = false ∧ encoder.map Prod.snd = List.range' index encoder.length) := by
  induction encoder with
  | nil =>
    intro lines warned index
    simp [List.range']
  | cons p rest ih =>
    intro lines warned index
    by_cases hip : index = p.2
    · have hstep : saveStep (lines, warned, index) p = (lines ++ [p.1], warned, index + 1) := by
        simp [saveStep, hip]
      rw [List.foldl_cons, hstep]
      obtain ⟨ih1, ih2⟩ := ih (lines ++ [p.1]) warned (index + 1)
      refine ⟨by rw [ih1]; simp, ?_⟩
      rw [ih2]
      constructor
      · rintro ⟨hw, hr⟩
        refine ⟨hw, ?_⟩
        simp only [List.map_cons, List.length_cons, List.range'_succ, hr, ← hip]
      · rintro ⟨hw, hr⟩
        refine ⟨hw, ?_⟩
        simp only [List.map_cons, List.length_cons, List.range'_succ] at hr
        exact (List.cons.injEq _ _ _ _ ▸ hr).2
    · have hstep : saveStep (lines, warned, index) p = (lines ++ [p.1], true, p.2 + 1) := by
        simp [saveStep, hip]
      rw [List.foldl_cons, hstep]
      obtain ⟨ih1, ih2⟩ := ih (lines ++ [p.1]) true (p.2 + 1)
      refine ⟨by rw [ih1]; simp, ?_⟩
      rw [ih2]
      constructor
      · rintro ⟨hw, -⟩
        exact absurd hw (by simp)
      · rintro ⟨-, hr⟩
        simp only [List.map_cons, List.length_cons, List.range'_succ] at hr
        exact absurd ((List.cons.injEq _ _ _ _ ▸ hr).1).symm hip

/-! ## Fold-max lemmas for the padder -/

theorem foldl_max_init_le (l : List Nat) : ∀ b : Nat, b ≤ l.foldl max b := by
  induction l with
  | nil => intro b; exact Nat.le_refl b
  | cons x l ih =>
    intro b
    exact Nat.le_trans (Nat.le_max_left b x) (ih (max b x))

theorem le_foldl_max {l : List Nat} {a : Nat} (h : a ∈ l) : ∀ b : Nat, a ≤ l.foldl max b := by
  induction l with
  | nil => simp at h
  | cons x l ih =>
    intro b
    rcases List.mem_cons.1 h with rfl | h'
    · exact Nat.le_trans (Nat.le_max_right b a) (foldl_max_init_le l (max b a))
    · exact ih h' (max b x)

theorem listMapM_map_eq {α β γ : Type} {mk : α → β} {proj : β → Option γ} {g : α → γ}
    (h : ∀ a, proj (mk a) = some (g a)) (l : List α) :
    listMapM proj (l.map mk) = some (l.map g) := by
  induction l with
  | nil => simp [listMapM]
  | cons a l ih => simp [listMapM, h, ih]

/-! ## Padder lemmas -/

theorem listMapM_map_eq_mem {α β γ : Type} {mk : α → β} {proj : β → Option γ} {g : α → γ}
    (l : List α) (h : ∀ a ∈ l, proj (mk a) = some (g a)) :
    listMapM proj (l.map mk) = some (l.map g) := by
  induction l with
  | nil => simp [listMapM]
  | cons a l ih =>
    simp [listMapM, h a (by simp), ih (fun a ha => h a (by simp [ha]))]

theorem listMapM_asD1_map (ls : List (List Int)) :
    listMapM PTensor.asD1? (ls.map PTensor.d1) = some ls := by
  induction ls with
  | nil => rfl
  | cons a l ih => simp [listMapM, PTensor.asD1?, ih]

theorem listMapM_asD2_map (rows : List (List Int)) :
    listMapM PTensor.asD2? (rows.map (fun r => PTensor.d2 [r])) =
      some (rows.map (fun r => [r])) := by
  induction rows with
  | nil => rfl
  | cons a l ih => simp [listMapM, PTensor.asD2?, ih]

theorem d2_items_lastDimLen (rows : List (List Int)) :
    (rows.map (fun r => PTensor.d2 [r])).map PTensor.lastDimLen = rows.map List.length := by
  rw [List.map_map]
  rfl

theorem padMaxLen_d2 (rows : List (List Int)) :
    padMaxLen (rows.map (fun r => PTensor.d2 [r])) = (rows.map List.length).foldl max 0 := by
  unfold padMaxLen
  rw [d2_items_lastDimLen]

theorem length_le_padMaxLen {rows : List (List Int)} {r : List Int} (hr : r ∈ rows) :
    r.length ≤ padMaxLen (rows.map (fun r => PTensor.d2 [r])) := by
  rw [padMaxLen_d2]
  exact le_foldl_max (List.mem_map.2 ⟨r, hr, rfl⟩) 0

theorem pad_d1 (l : List Int) (ls : List (List Int)) (pv : Int) (side : String)
    (h : l ≠ []) :
    pad ((l :: ls).map PTensor.d1) pv side = some (PTensor.d1 ((l :: ls).flatten)) := by
  have hmm : listMapM PTensor.asD1? ((l :: ls).map PTensor.d1) = some (l :: ls) :=
    listMapM_asD1_map (l :: ls)
  obtain ⟨a, l', rfl⟩ := List.exists_cons_of_ne_nil h
  simp only [List.map_cons] at hmm ⊢
  simp only [pad, PTensor.headOK, List.isEmpty_cons, Bool.not_false, Bool.true_eq_false,
    if_false, hmm, Option.map_some']

theorem pad_d2_left (rows : List (List Int)) (pv : Int)
    (h0 : rows ≠ [])
    (hne : padMaxLen (rows.map (fun r => PTensor.d2 [r])) ≠
      padMinLen (rows.map (fun r => PTensor.d2 [r])))
    (hnon : ∀ r ∈ rows, r ≠ []) :
    pad (rows.map (fun r => PTensor.d2 [r])) pv "left" =
      some (PTensor.d2 (rows.map (fun r =>
        List.replicate (padMaxLen (rows.map (fun r => PTensor.d2 [r])) - r.length) pv
          ++ r))) := by
  have hstep : ∀ r ∈ rows,
      copyRow (padMaxLen (rows.map (fun r => PTensor.d2 [r]))) pv "left" [r] =
        some (List.replicate (padMaxLen (rows.map (fun r => PTensor.d2 [r])) - r.length) pv
          ++ r) := by
    intro r hr
    have hlen : r.length ≤ padMaxLen (rows.map (fun r => PTensor.d2 [r])) :=
      length_le_padMaxLen hr
    have hr0 : r.length ≠ 0 := fun hz => hnon r hr (List.length_eq_zero.1 hz)
    rw [show copyRow (padMaxLen (rows.map (fun r => PTensor.d2 [r]))) pv "left" [r] =
        setRowLeft (List.replicate (padMaxLen (rows.map (fun r => PTensor.d2 [r]))) pv) r
      from rfl]
    unfold setRowLeft
    rw [if_neg hr0, if_pos (by rw [List.length_replicate]; exact hlen)]
    rw [List.length_replicate, List.take_replicate,
      min_eq_left (Nat.sub_le _ r.length)]
  have hasd2 : listMapM PTensor.asD2? (rows.map (fun r => PTensor.d2 [r])) =
      some (rows.map (fun r => [r])) := listMapM_asD2_map rows
  have hinner := listMapM_map_eq_mem rows hstep
  have hne2 := hne
  obtain ⟨r0, rows', rfl⟩ := List.exists_cons_of_ne_nil h0
  simp only [List.map_cons] at hasd2 hinner hne2 ⊢
  simp only [pad, PTensor.headOK, List.isEmpty_cons, Bool.not_false, Bool.true_eq_false,
    if_false, hasd2, if_neg hne2, hinner, Option.map_some']

theorem pad_d2_right (rows : List (List Int)) (pv : Int)
    (h0 : rows ≠ [])
    (hne : padMaxLen (rows.map (fun r => PTensor.d2 [r])) ≠
      padMinLen (rows.map (fun r => PTensor.d2 [r]))) :
    pad (rows.map (fun r => PTensor.d2 [r])) pv "right" =
      some (PTensor.d2 (rows.map (fun r =>
        r ++ List.replicate (padMaxLen (rows.map (fun r => PTensor.d2 [r])) - r.length)
          pv))) := by
  have hstep : ∀ r ∈ rows,
      copyRow (padMaxLen (rows.map (fun r => PTensor.d2 [r]))) pv "right" [r] =
        some (r ++
          List.replicate (padMaxLen (rows.map (fun r => PTensor.d2 [r])) - r.length) pv) := by
    intro r hr
    have hlen : r.length ≤ padMaxLen (rows.map (fun r => PTensor.d2 [r])) :=
      length_le_padMaxLen hr
    rw [show copyRow (padMaxLen (rows.map (fun r => PTensor.d2 [r]))) pv "right" [r] =
        setRowRight (List.replicate (padMaxLen (rows.map (fun r => PTensor.d2 [r]))) pv) r
      from rfl]
    unfold setRowRight
    rw [if_pos (by rw [List.length_replicate]; exact hlen), List.drop_replicate]
  have hasd2 : listMapM PTensor.asD2? (rows.map (fun r => PTensor.d2 [r])) =
      some (rows.map (fun r => [r])) := listMapM_asD2_map rows
  have hinner := listMapM_map_eq_mem rows hstep
  have hne2 := hne
  obtain ⟨r0, rows', rfl⟩ := List.exists_cons_of_ne_nil h0
  simp only [List.map_cons] at hasd2 hinner hne2 ⊢
  simp only [pad, PTensor.headOK, List.isEmpty_cons, Bool.not_false, Bool.true_eq_false,
    if_false, hasd2, if_neg hne2, hinner, Option.map_some']

theorem dictGet?_isSome_of_inVocab {encoder : List (String × Nat)} {s : String}
    (h : inVocab encoder s = true) : (dictGet? encoder s).isSome := by
  unfold inVocab at h
  rcases List.any_eq_true.1 h with ⟨p, hp, hps⟩
  have hmem : s ∈ encoder.map Prod.fst := by
    have hpe : p.1 = s := by simpa using hps
    exact hpe ▸ List.mem_map.2 ⟨p, hp, rfl⟩
  exact dictGet?_isSome_of_mem_keys hmem

/-! ## Claim theorems -/

/-- C1: the greedy subword segmenter (`WordpieceTokenizer.tokenize`, embedded
as `wordpieceTokenize`) equals the specified reference algorithm
(`specTokenize`, defined from the spec's words): a span whose character count
exceeds the guard yields `[unk_token]`, otherwise the left-to-right scan emits
at each cursor the longest vocabulary match (found by shrinking the end down
to `start+1`) and advances past it, or emits the unknown marker and advances
by one; and on the spec's example vocabulary, span `"ab"` yields `["ab"]` and
span `"ac"` yields `["a", "<unk>"]`. -/
theorem claim_c1_segmenter_matches_reference :
    (∀ (vocab : List (String × Nat)) (unk_token : String)
        (max_input_chars_per_word : Nat) (token : String),
      wordpieceTokenize vocab unk_token max_input_chars_per_word token =
        specTokenize vocab unk_token max_input_chars_per_word token) ∧
    (∀ (vocab : List (String × Nat)) (unk_token : String)
        (max_input_chars_per_word : Nat) (token : String),
      token.data.length > max_input_chars_per_word →
        wordpieceTokenize vocab unk_token max_input_chars_per_word token = [unk_token]) ∧
    wordpieceTokenize exampleVocab "<unk>" 200 "ab" = ["ab"] ∧
    wordpieceTokenize exampleVocab "<unk>" 200 "ac" = ["a", "<unk>"] := by
  refine ⟨wordpieceTokenize_eq_specTokenize, ?_, by decide, by decide⟩
  intro vocab unk_token m token h
  simp only [wordpieceTokenize]
  rw [if_pos h]

/-- Witness for C1: the guard clause evaluated at a concrete over-long span. -/
theorem claim_c1_witness :
    wordpieceTokenize exampleVocab "<unk>" 1 "ab" = ["<unk>"] :=
  claim_c1_segmenter_matches_reference.2.1 exampleVocab "<unk>" 1 "ab" (by decide)

/-- C2: on a nonempty span whose character count is within the guard, the
segmenter emits at least one token; it terminates, in the sense that the
scanning loop is already finished within `span length` iterations (any fuel at
least the span length computes the same value); and the cursor strictly
increases on every iteration of the outer loop (`wpNext` is the source loop's
cursor update). -/
theorem claim_c2_progress (vocab : List (String × Nat)) (unk_token : String)
    (max_input_chars_per_word : Nat) (token : String)
    (h1 : token ≠ "") (h2 : token.data.length ≤ max_input_chars_per_word) :
    wordpieceTokenize vocab unk_token max_input_chars_per_word token ≠ [] ∧
    (∀ fuel : Nat, token.data.length ≤ fuel →
      wpLoop vocab unk_token token.data fuel 0 =
        wordpieceTokenize vocab unk_token max_input_chars_per_word token) ∧
    (∀ start : Nat, start < token.data.length →
      start < wpNext vocab token.data start) := by
  have hdata : token.data ≠ [] := by
    intro hd
    apply h1
    apply String.ext
    rw [hd]
  have hlen : 0 < token.data.length := List.length_pos.2 hdata
  have hguard : ¬token.data.length > max_input_chars_per_word := by omega
  refine ⟨?_, ?_, ?_⟩
  · simp only [wordpieceTokenize]
    rw [if_neg hguard]
    cases hl : token.data.length with
    | zero => omega
    | succ k =>
      simp only [wpLoop]
      rw [if_pos hlen]
      cases hm : longestMatch vocab token.data 0 token.data.length <;> simp
  · intro fuel hf
    simp only [wordpieceTokenize]
    rw [if_neg hguard]
    exact wpLoop_fuel fuel (by omega) (by omega)
  · intro start _
    exact wpNext_gt vocab token.data start

/-- Witness for C2 at the concrete span `"ab"` over the example vocabulary. -/
theorem claim_c2_witness :
    wordpieceTokenize exampleVocab "<unk>" 200 "ab" ≠ [] ∧
    (∀ fuel : Nat, ("ab" : String).data.length ≤ fuel →
      wpLoop exampleVocab "<unk>" ("ab" : String).data fuel 0 =
        wordpieceTokenize exampleVocab "<unk>" 200 "ab") ∧
    (∀ start : Nat, start < ("ab" : String).data.length →
      start < wpNext exampleVocab ("ab" : String).data start) :=
  claim_c2_progress exampleVocab "<unk>" 200 "ab" (by decide) (by decide)

/-- C3: after tokenizer construction (vocabulary file lines pairwise distinct,
not containing the literal space or newline characters, containing both
placeholder tokens, and the two placeholders distinct — the construction's
intended inputs), the encoder and the decoder are exact inverses: for every
token bound in the encoder, looking up its id in the decoder returns the
token, and for every id bound in the decoder, looking up its token in the
encoder returns the id. -/
theorem claim_c3_encoder_decoder_inverse {tokens : List String}
    {space_token line_token : String}
    (hnd : tokens.Nodup) (h5 : " " ∉ tokens) (h6 : "\n" ∉ tokens)
    (h4 : space_token ≠ line_token)
    (hsm : space_token ∈ tokens) (hlm : line_token ∈ tokens) :
    ∃ enc, buildEncoder tokens space_token line_token = some enc ∧
      (∀ t i, dictGet? enc t = some i → dictGet? (buildDecoder enc) i = some t) ∧
      (∀ i t, dictGet? (buildDecoder enc) i = some t → dictGet? enc t = some i) := by
  have hkeys : (load_vocab tokens).map Prod.fst = tokens := by
    rw [load_vocab_of_nodup hnd, List.map_map]
    have he : (Prod.fst ∘ fun p : Nat × String => (p.2, p.1)) = Prod.snd := rfl
    rw [he, List.enum_map_snd]
  rcases Option.isSome_iff_exists.1 (dictGet?_isSome_of_mem_keys (hkeys ▸ hsm)) with ⟨sid, hs⟩
  rcases Option.isSome_iff_exists.1 (dictGet?_isSome_of_mem_keys (hkeys ▸ hlm)) with ⟨lid, hl⟩
  have hinv := encoder_decoder_inverse (buildEncoder_keys_nodup hnd h5 h6)
    (buildEncoder_snd_nodup hnd h4 hs hl)
  exact ⟨_, buildEncoder_explicit h5 h6 hs hl, hinv.1, hinv.2⟩

/-- Witness for C3 on a concrete five-token vocabulary file. -/
theorem claim_c3_witness :
    ∃ enc, buildEncoder ["<unk>", "<s>", "</_>", "</n>", "a"] "</_>" "</n>" = some enc ∧
      (∀ t i, dictGet? enc t = some i → dictGet? (buildDecoder enc) i = some t) ∧
      (∀ i t, dictGet? (buildDecoder enc) i = some t → dictGet? enc t = some i) :=
  claim_c3_encoder_decoder_inverse (by decide) (by decide) (by decide) (by decide)
    (by decide) (by decide)

/-- C4: after loading a vocabulary file containing both placeholders, the
table equals the file's table with exactly two swaps, characterised pointwise:
`" "` holds the id previously assigned to the space placeholder, `"\n"` holds
the id previously assigned to the line placeholder, both placeholders are gone
(lookup fails), and every other token's lookup is unchanged from its file-order
id in `load_vocab`. -/
theorem claim_c4_two_swaps {tokens : List String} {space_token line_token : String}
    {sid lid : Nat}
    (h5 : " " ∉ tokens) (h6 : "\n" ∉ tokens) (h4 : space_token ≠ line_token)
    (hs : dictGet? (load_vocab tokens) space_token = some sid)
    (hl : dictGet? (load_vocab tokens) line_token = some lid) :
    ∃ enc, buildEncoder tokens space_token line_token = some enc ∧
      ∀ t, dictGet? enc t =
        if t = " " then some sid
        else if t = "\n" then some lid
        else if t = space_token ∨ t = line_token then none
        else dictGet? (load_vocab tokens) t :=
  ⟨_, buildEncoder_explicit h5 h6 hs hl, buildEncoder_get h5 h6 h4 hs hl⟩

/-- Witness for C4 on a concrete five-token vocabulary file (the placeholders
sit at ids 2 and 3, which `" "` and `"\n"` take over). -/
theorem claim_c4_witness :
    ∃ enc, buildEncoder ["<unk>", "<s>", "</_>", "</n>", "a"] "</_>" "</n>" = some enc ∧
      ∀ t, dictGet? enc t =
        if t = " " then some 2
        else if t = "\n" then some 3
        else if t = "</_>" ∨ t = "</n>" then none
        else dictGet? (load_vocab ["<unk>", "<s>", "</_>", "</n>", "a"]) t :=
  claim_c4_two_swaps (by decide) (by decide) (by decide) (by decide) (by decide)

/-- C5 counterexample: the claim quantifies over every `prompt_length` and
`task_id`, but a prompt slot can equal the unknown id — with unknown id 0,
bos id 1, `prompt_length = 1`, `task_id = 0` the prompt prefix is `[0]`, so the
built `input` field `[0, 1]` contains the unknown id even though the encoded
content was filtered. -/
theorem claim_c5_counterexample :
    convertInput 1 0 1 0 [] = [0, 1] ∧ (0 : Nat) ∈ convertInput 1 0 1 0 [] := by
  constructor <;> decide

/-- C5 (amended): every id equal to the unknown id is dropped from the encoded
sequence (bos id included) before the prompt prefix is prepended — the part of
`input` after the prompt slots is exactly the filtered sequence — and whenever
no prompt slot value collides with the unknown id, the whole `input` contains
no occurrence of the unknown id. -/
theorem claim_c5_amended (bos_id unk_id prompt_length task_id : Nat)
    (encoded : List Nat)
    (h : ∀ x : Nat, x < prompt_length → x + prompt_length * task_id ≠ unk_id) :
    unk_id ∉ convertInput bos_id unk_id prompt_length task_id encoded ∧
    (convertInput bos_id unk_id prompt_length task_id encoded).drop prompt_length =
      (bos_id :: encoded).filter (fun j => j != unk_id) := by
  constructor
  · intro hmem
    simp only [convertInput] at hmem
    rcases List.mem_append.1 hmem with hm | hm
    · rcases List.mem_map.1 hm with ⟨x, hx, hxe⟩
      exact h x (List.mem_range.1 hx) hxe
    · have hf := (List.mem_filter.1 hm).2
      simp at hf
  · simp only [convertInput]
    have hlen : ((List.range prompt_length).map
        (fun x => x + prompt_length * task_id)).length = prompt_length := by
      simp
    have hd := List.drop_left
      ((List.range prompt_length).map (fun x => x + prompt_length * task_id))
      ((bos_id :: encoded).filter (fun j => j != unk_id))
    rw [hlen] at hd
    exact hd

/-- Witness for C5 (amended) at a concrete non-colliding configuration. -/
theorem claim_c5_witness :
    (0 : Nat) ∉ convertInput 1 0 2 2 [0, 3] ∧
    (convertInput 1 0 2 2 [0, 3]).drop 2 =
      ((1 : Nat) :: [0, 3]).filter (fun j => j != 0) :=
  claim_c5_amended 1 0 2 2 [0, 3] (by decide)

/-- C6 counterexample: a *nonnegative* id absent from the decoder is not
recovered — `decode` and `convert_ids_to_tokens` raise a `KeyError` (modelled
as `none`) instead of substituting the unknown sentinel or skipping it. -/
theorem claim_c6_counterexample :
    decode [(0, "a")] [(5 : Int)] = none ∧
    convert_ids_to_tokens [(0, "a")] "<unk>" [(5 : Int)] = none := by
  constructor <;> decide

/-- C6 (amended): lookup misses are recovered without raising only in these
cases — `decode` succeeds whenever every *nonnegative* id resolves (negative
ids are silently skipped, and an all-negative sequence decodes to `""`);
`convert_ids_to_tokens` succeeds whenever every nonnegative id resolves
(negative ids map to the unknown token); and `convert_tokens_to_ids` never
raises provided the unknown token is itself in the table, mapping every absent
token to the unknown id.  A nonnegative id absent from the decoder, by
contrast, raises (see the counterexample). -/
theorem claim_c6_amended :
    (∀ (decoder : List (Nat × String)) (ids : List Int),
      (∀ i ∈ ids, 0 ≤ i → i.toNat ∈ decoder.map Prod.fst) →
      (decode decoder ids).isSome = true) ∧
    (∀ (decoder : List (Nat × String)) (unk_token : String) (ids : List Int),
      (∀ i ∈ ids, 0 ≤ i → i.toNat ∈ decoder.map Prod.fst) →
      (convert_ids_to_tokens decoder unk_token ids).isSome = true) ∧
    (∀ (decoder : List (Nat × String)) (ids : List Int),
      (∀ i ∈ ids, i < 0) → decode decoder ids = some "") ∧
    (∀ (decoder : List (Nat × String)) (unk_token : String) (ids : List Int),
      (∀ i ∈ ids, i < 0) →
      convert_ids_to_tokens decoder unk_token ids =
        some (ids.map (fun _ => unk_token))) ∧
    (∀ (encoder : List (String × Nat)) (unk_token : String) (unk_id : Nat)
        (tokens : List String),
      dictGet? encoder unk_token = some unk_id →
      convert_tokens_to_ids encoder unk_token tokens =
        some (tokens.map (fun x => (dictGet? encoder x).getD unk_id))) := by
  refine ⟨?_, ?_, ?_, ?_, ?_⟩
  · intro decoder ids h
    simp only [decode, Option.isSome_map']
    apply listMapM_isSome
    intro x hx
    obtain ⟨hx1, hx2⟩ := List.mem_filter.1 hx
    exact dictGet?_isSome_of_mem_keys (h x hx1 (by simpa using hx2))
  · intro decoder unk_token ids h
    apply listMapM_isSome
    intro x hx
    by_cases hneg : 0 ≤ x
    · rw [if_pos hneg]
      exact dictGet?_isSome_of_mem_keys (h x hx hneg)
    · rw [if_neg hneg]
      rfl
  · intro decoder ids h
    have hnil : ids.filter (fun i => decide (0 ≤ i)) = [] := by
      apply List.filter_eq_nil_iff.2
      intro a ha
      simpa using Int.not_le.2 (h a ha)
    simp only [decode, hnil, listMapM, Option.map_some']
    rfl
  · intro decoder unk_token ids h
    apply listMapM_eq_some
    intro a ha
    rw [if_neg (Int.not_le.2 (h a ha))]
  · intro encoder unk_token unk_id tokens hu
    apply listMapM_eq_some
    intro a _
    rw [hu]
    rfl

/-- Witness for C6 (amended): decoding a mixed sequence with a resolvable
nonnegative id and a negative id succeeds. -/
theorem claim_c6_witness :
    (decode [(0, "a"), (1, "b")] [(1 : Int), (-7 : Int), (0 : Int)]).isSome = true :=
  claim_c6_amended.1 [(0, "a"), (1, "b")] [1, -7, 0] (by decide)

/-- C7 counterexample: a batch of two rank-2 rows with unequal trailing
lengths (0 and 1) in which one row is empty.  Under `padding_side="left"` the
source assigns through the slice `tensor[i, -len(row):]`, and `-0:` addresses
the *whole* output row, so the empty row raises a shape-mismatch error
(modelled as `none`) instead of being placed right-justified with all leading
positions equal to `padding_value` — the claim's universal statement fails. -/
theorem claim_c7_counterexample :
    pad [PTensor.d2 [[]], PTensor.d2 [[7]]] 9 "left" = none ∧
    padMaxLen [PTensor.d2 [[]], PTensor.d2 [[7]]] ≠
      padMinLen [PTensor.d2 [[]], PTensor.d2 [[7]]] := by
  constructor <;> decide

/-- C7 (amended): for every nonempty batch of *nonempty* rank-2 rows with
unequal trailing lengths, `padding_side="left"` right-justifies each original
row (the padded row is `padding_value`-filled up to the row, has the batch
maximum length, keeps the row's last element at the padded row's last
position, and every leading position equals `padding_value`), while
`padding_side="right"` left-justifies it (the row's last element lands at
index `original_length - 1`). -/
theorem claim_c7_amended (rows : List (List Int)) (pv : Int)
    (h0 : rows ≠ [])
    (hne : padMaxLen (rows.map (fun r => PTensor.d2 [r])) ≠
      padMinLen (rows.map (fun r => PTensor.d2 [r])))
    (hnon : ∀ r ∈ rows, r ≠ []) :
    pad (rows.map (fun r => PTensor.d2 [r])) pv "left" =
      some (PTensor.d2 (rows.map (fun r =>
        List.replicate (padMaxLen (rows.map (fun r => PTensor.d2 [r])) - r.length) pv
          ++ r))) ∧
    pad (rows.map (fun r => PTensor.d2 [r])) pv "right" =
      some (PTensor.d2 (rows.map (fun r =>
        r ++ List.replicate (padMaxLen (rows.map (fun r => PTensor.d2 [r])) - r.length)
          pv))) ∧
    (∀ r ∈ rows,
      (List.replicate (padMaxLen (rows.map (fun r => PTensor.d2 [r])) - r.length) pv
          ++ r).length = padMaxLen (rows.map (fun r => PTensor.d2 [r])) ∧
      (List.replicate (padMaxLen (rows.map (fun r => PTensor.d2 [r])) - r.length) pv
          ++ r).getLast? = r.getLast? ∧
      (∀ j : Nat, j < padMaxLen (rows.map (fun r => PTensor.d2 [r])) - r.length →
        (List.replicate (padMaxLen (rows.map (fun r => PTensor.d2 [r])) - r.length) pv
          ++ r)[j]? = some pv) ∧
      (r ++ List.replicate (padMaxLen (rows.map (fun r => PTensor.d2 [r])) - r.length)
          pv)[r.length - 1]? = r.getLast?) := by
  refine ⟨pad_d2_left rows pv h0 hne hnon, pad_d2_right rows pv h0 hne, ?_⟩
  intro r hr
  have hlen : r.length ≤ padMaxLen (rows.map (fun r => PTensor.d2 [r])) :=
    length_le_padMaxLen hr
  have hrne : r ≠ [] := hnon r hr
  have hrpos : 0 < r.length := List.length_pos.2 hrne
  refine ⟨?_, ?_, ?_, ?_⟩
  · rw [List.length_append, List.length_replicate]
    omega
  · exact List.getLast?_append_of_ne_nil _ hrne
  · intro j hj
    rw [List.getElem?_append, if_pos (by rw [List.length_replicate]; exact hj),
      List.getElem?_replicate, if_pos hj]
  · rw [List.getElem?_append, if_pos (by omega), ← List.getLast?_eq_getElem?]

/-- Witness for C7 (amended) on a concrete two-row batch with lengths 1, 2. -/
theorem claim_c7_witness :
    pad [PTensor.d2 [[3]], PTensor.d2 [[1, 2]]] 9 "left" =
      some (PTensor.d2 [[9, 3], [1, 2]]) ∧
    pad [PTensor.d2 [[3]], PTensor.d2 [[1, 2]]] 9 "right" =
      some (PTensor.d2 [[3, 9], [1, 2]]) := by
  have h := claim_c7_amended [[3], [1, 2]] 9 (by decide) (by decide) (by decide)
  exact ⟨h.1, h.2.1⟩

/-- C8: `save_vocabulary` writes exactly the table's tokens, one line each, in
iteration order; the non-consecutive-indices warning is not emitted exactly
when the ids in iteration order are `0, 1, …, n-1` (in which case iteration
order *is* id order, so the tokens are written in id order); when the ids are
non-consecutive the warning is emitted but all lines are still written
(non-fatal), in iteration order. -/
theorem claim_c8_save (encoder : List (String × Nat)) :
    (save_vocabulary encoder).1 = encoder.map Prod.fst ∧
    ((save_vocabulary encoder).2 = false ↔
      encoder.map Prod.snd = List.range encoder.length) := by
  obtain ⟨h1, h2⟩ := save_foldl_inv encoder [] false 0
  unfold save_vocabulary
  constructor
  · simpa using h1
  · rw [List.range_eq_range']
    simpa using h2

/-- C9 counterexample: nothing forces the unknown token to be a key of the
encoder — with encoder `{"a": 0}` and unknown token `"<unk>"`, the facade
tokenizer produces the unknown marker for span `"b"`, and `encode`, which
indexes the encoder without a default, fails on it. -/
theorem claim_c9_counterexample :
    inVocab [("a", 0)] "<unk>" = false ∧
    tokenize [("a", 0)] "<unk>" 200 ["b"] = ["<unk>"] ∧
    encode [("a", 0)] "<unk>" 200 ["b"] = none := by
  refine ⟨by decide, by decide, by decide⟩

/-- C9 (amended): every token produced by the facade tokenizer (word spans
each wordpiece-segmented, results concatenated) is a key of the encoder or the
unknown token; and provided the unknown token is itself a key of the encoder
(true for the shipped vocabulary, though not enforced at construction),
`encode` never fails on any span sequence. -/
theorem claim_c9_amended (encoder : List (String × Nat)) (unk_token : String)
    (max_input_chars_per_word : Nat)
    (hu : inVocab encoder unk_token = true) :
    (∀ (spans : List String) (t : String),
      t ∈ tokenize encoder unk_token max_input_chars_per_word spans →
        t = unk_token ∨ inVocab encoder t = true) ∧
    (∀ spans : List String,
      (encode encoder unk_token max_input_chars_per_word spans).isSome = true) := by
  have hmem : ∀ (spans : List String) (t : String),
      t ∈ tokenize encoder unk_token max_input_chars_per_word spans →
        t = unk_token ∨ inVocab encoder t = true := by
    intro spans t ht
    unfold tokenize at ht
    rcases List.mem_flatten.1 ht with ⟨l, hl, htl⟩
    rcases List.mem_map.1 hl with ⟨s, _, rfl⟩
    exact wordpieceTokenize_mem htl
  refine ⟨hmem, ?_⟩
  intro spans
  unfold encode
  apply listMapM_isSome
  intro t ht
  rcases hmem spans t ht with rfl | hv
  · exact dictGet?_isSome_of_inVocab hu
  · exact dictGet?_isSome_of_inVocab hv

/-- Witness for C9 (amended): encoding succeeds on a span with unknown
content over the example vocabulary (which contains the unknown token). -/
theorem claim_c9_witness :
    (encode exampleVocab "<unk>" 200 ["ab", "zq"]).isSome = true :=
  (claim_c9_amended exampleVocab "<unk>" 200 (by decide)).2 ["ab", "zq"]

/-- C10 counterexample: the claim quantifies over every rank-1 batch, but when
the first bundle's tensor is empty the source's
`isinstance(orig_items[0][key][0], torch.Tensor)` check raises an IndexError
(modelled as `none`), so `pad` does not return the concatenation `[5]`. -/
theorem claim_c10_counterexample :
    pad [PTensor.d1 [], PTensor.d1 [5]] 0 "left" = none ∧
    ([[], [5]] : List (List Int)).flatten = [5] := by
  constructor <;> decide

/-- C10 (amended): for every batch of rank-1 tensors whose *first* tensor is
nonempty (the only one the source indexes before concatenating), `pad`
returns the plain concatenation of the per-bundle tensors in bundle order,
and the `padding_value` and `padding_side` arguments have no effect. -/
theorem claim_c10_amended (l : List Int) (ls : List (List Int))
    (pv pv' : Int) (side side' : String) (h : l ≠ []) :
    pad ((l :: ls).map PTensor.d1) pv side = some (PTensor.d1 ((l :: ls).flatten)) ∧
    pad ((l :: ls).map PTensor.d1) pv side =
      pad ((l :: ls).map PTensor.d1) pv' side' := by
  refine ⟨pad_d1 l ls pv side h, ?_⟩
  rw [pad_d1 l ls pv side h, pad_d1 l ls pv' side' h]

/-- Witness for C10 (amended) on a concrete batch of two singleton tensors. -/
theorem claim_c10_witness :
    pad [PTensor.d1 [7], PTensor.d1 [8]] 3 "left" = some (PTensor.d1 [7, 8]) ∧
    pad [PTensor.d1 [7], PTensor.d1 [8]] 3 "left" =
      pad [PTensor.d1 [7], PTensor.d1 [8]] 99 "right" :=
  claim_c10_amended [7] [[8]] 3 99 "left" "right" (by decide)
